import Mathlib

/-!
Verification of the difacto optimizer core (`src/bcd/bcd_utils.h`,
`src/sgd/sgd_updater.h`) against its natural-language specification.

Machine integers (`feaid_t = uint64_t`) are embedded as `ℕ` together with
explicit bounds `< 2^64` where they matter; `real_t` values that the claims
treat as exact quantities (counters, the trust-region formula, parameter
ranges) are embedded as `ℚ`.  Fatal `CHECK` macros are embedded by making
the enclosing operation return `Option`, with `none` for a failed check.
-/

namespace Difacto

/-! ### Feature identifiers and the reordered comparison key -/

/-- Number of bits of a feature id (`FEAID_NBITS`, `feaid_t = uint64_t`). -/
def FEAID_NBITS : ℕ := 64

/-- `std::numeric_limits<feaid_t>::max()`. -/
def keyMax : ℕ := 2 ^ 64 - 1

/-- Byte `j` (counting from the least significant end) of a 64-bit value. -/
def byteAt (x j : ℕ) : ℕ := x / 2 ^ (8 * j) % 2 ^ 8

/-- Modelled from the spec: `ReverseBytes` — the comparison order of this
subsystem is "defined over a byte-reversed representation of the raw value".
The function itself lives in a repository header that is not part of the
provided sources, so it is modelled from the spec's words as the reversal of
the eight bytes of a 64-bit value. -/
def ReverseBytes (x : ℕ) : ℕ :=
  byteAt x 0 * 2 ^ 56 + byteAt x 1 * 2 ^ 48 + byteAt x 2 * 2 ^ 40 +
  byteAt x 3 * 2 ^ 32 + byteAt x 4 * 2 ^ 24 + byteAt x 5 * 2 ^ 16 +
  byteAt x 6 * 2 ^ 8 + byteAt x 7

/-- A half-open interval over the reordered order (repository type `Range`).
The C++ fields `begin`/`end` are named `lo`/`hi` here because `end` is a
Lean keyword. -/
structure Range where
  lo : ℕ
  hi : ℕ
  deriving DecidableEq, Repr

/-- Modelled from the spec: `Range::Valid()` — "every block is valid
(`begin <= end`)". -/
def Range.Valid (r : Range) : Bool := decide (r.lo ≤ r.hi)

/-- Modelled from the spec: `Range::Segment(i, n)` — "split it into
`partitionCount` equal-width contiguous sub-intervals": sub-interval `i` of
`n`, each of width `(hi - lo) / n`, the last one absorbing the remainder. -/
def Range.Segment (r : Range) (i n : ℕ) : Range :=
  let itv := (r.hi - r.lo) / n
  ⟨r.lo + itv * i, if i = n - 1 then r.hi else r.lo + itv * (i + 1)⟩

/-! ### `FeatureBlock::Partition` (src/bcd/bcd_utils.h lines 21-45) -/

/-- The reordered-order range of one feature group:
`g.begin = ReverseBytes(tag << (FEAID_NBITS - nbits))`,
`g.end   = ReverseBytes((key_max >> nbits) | begin)`. -/
def groupRange (nbits tag : ℕ) : Range :=
  ⟨ReverseBytes (tag <<< (FEAID_NBITS - nbits)),
   ReverseBytes ((keyMax >>> nbits) ||| (tag <<< (FEAID_NBITS - nbits)))⟩

/-- The segments pushed for one `(tag, partitionCount)` pair. -/
def segsOf (nbits : ℕ) (p : ℕ × ℕ) : List Range :=
  (List.range p.2).map fun i => (groupRange nbits p.1).Segment i p.2

/-- The block-collection loop of `Partition`: for each group, check
`CHECK_GT(1 << nbits, tag)`, push its segments and `CHECK` each is valid. -/
def buildBlocks (nbits : ℕ) : List (ℕ × ℕ) → Option (List Range)
  | [] => some []
  | p :: rest =>
    if p.1 < 2 ^ nbits then
      if (segsOf nbits p).all Range.Valid then
        (buildBlocks nbits rest).map (segsOf nbits p ++ ·)
      else none
    else none

/-- The gap-closing loop of `Partition`: for each adjacent pair, if
`before.end < after.begin` then `++before.end`, then
`CHECK_LE(before.end, after.begin)`.  When a gap was bumped the check
`before.end + 1 ≤ after.begin` always holds, so the two source statements
collapse into the two branches below. -/
def fixGaps : List Range → Option (List Range)
  | [] => some []
  | [r] => some [r]
  | a :: b :: rest =>
    if a.hi < b.lo then (fixGaps (b :: rest)).map (⟨a.lo, a.hi + 1⟩ :: ·)
    else if a.hi ≤ b.lo then (fixGaps (b :: rest)).map (a :: ·)
    else none

/-- The sort comparator of `Partition` (`a.begin < b.begin`, embedded as the
corresponding total order on `begin`). -/
def rangeLoLE (a b : Range) : Prop := a.lo ≤ b.lo

instance : DecidableRel rangeLoLE := fun a b => Nat.decLe a.lo b.lo

instance : IsTotal Range rangeLoLE := ⟨fun a b => Nat.le_total a.lo b.lo⟩

instance : IsTrans Range rangeLoLE := ⟨fun _ _ _ h h' => Nat.le_trans h h'⟩

/-- `FeatureBlock::Partition(feagrp_nbits, feagrps, feablks)`:
`CHECK_EQ(nbits % 4, 0)`, collect every group's segments, sort them by low
boundary, then close single-unit gaps between neighbours, failing if a block
overlaps its successor.  A failed `CHECK` is `none`. -/
def Partition (nbits : ℕ) (feagrps : List (ℕ × ℕ)) : Option (List Range) :=
  if nbits % 4 = 0 then
    (buildBlocks nbits feagrps).bind fun blks =>
      fixGaps (List.insertionSort rangeLoLE blks)
  else none

/-! ### Arithmetic facts about `ReverseBytes` on a fixed-top-bits subspace -/

theorem byteAt_lt (x j : ℕ) : byteAt x j < 2 ^ 8 :=
  Nat.mod_lt _ (by norm_num)

theorem reverseBytes_le (a b : ℕ) (h : ∀ j, byteAt a j ≤ byteAt b j) :
    ReverseBytes a ≤ ReverseBytes b := by
  unfold ReverseBytes
  gcongr <;> exact h _

/-- `(2^a - 1) / 2^b = 2^(a-b) - 1` (with truncated subtraction). -/
theorem pow_sub_one_div (a b : ℕ) : (2 ^ a - 1) / 2 ^ b = 2 ^ (a - b) - 1 := by
  rcases Nat.le_total b a with hba | hab
  · have hsplit : (2 : ℕ) ^ a = 2 ^ b * 2 ^ (a - b) := by
      rw [← pow_add]; congr 1; omega
    have hprod : (2 : ℕ) ^ b * (2 ^ (a - b) - 1) = 2 ^ b * 2 ^ (a - b) - 2 ^ b :=
      Nat.mul_sub_one _ _
    have hBA : (2 : ℕ) ^ b ≤ 2 ^ a := Nat.pow_le_pow_right (by norm_num) hba
    have hb1 : (1 : ℕ) ≤ 2 ^ b := Nat.one_le_two_pow
    have : (2 : ℕ) ^ a - 1 = (2 ^ b - 1) + 2 ^ b * (2 ^ (a - b) - 1) := by omega
    rw [this, Nat.add_mul_div_left _ _ (Nat.two_pow_pos b),
      Nat.div_eq_of_lt (Nat.sub_lt (Nat.two_pow_pos b) one_pos), Nat.zero_add]
  · have h0 : (2 : ℕ) ^ a - 1 < 2 ^ b :=
      Nat.lt_of_lt_of_le (Nat.sub_lt (Nat.two_pow_pos a) one_pos)
        (Nat.pow_le_pow_right (by norm_num) hab)
    rw [Nat.div_eq_of_lt h0, Nat.sub_eq_zero_of_le hab]
    simp

/-- Bitwise-or of a tag shifted high with an all-ones low part is their sum. -/
theorem lor_tag_top (s t : ℕ) :
    (2 ^ s - 1) ||| (t <<< s) = t * 2 ^ s + (2 ^ s - 1) := by
  apply Nat.eq_of_testBit_eq
  intro i
  have hb : 2 ^ s - 1 < 2 ^ s := Nat.sub_lt (Nat.two_pow_pos s) one_pos
  rw [Nat.mul_comm t, Nat.testBit_mul_pow_two_add t hb i, Nat.testBit_or,
    Nat.testBit_shiftLeft, Nat.testBit_two_pow_sub_one]
  by_cases h : i < s
  · simp [h, Nat.not_le.mpr h]
  · simp [h, Nat.not_lt.mp h]

theorem keyMax_shiftRight (n : ℕ) : keyMax >>> n = 2 ^ (64 - n) - 1 := by
  rw [keyMax, Nat.shiftRight_eq_div_pow, pow_sub_one_div]

/-- The group range written with plain arithmetic endpoints. -/
theorem groupRange_eq (nbits tag : ℕ) :
    groupRange nbits tag =
      ⟨ReverseBytes (tag * 2 ^ (64 - nbits)),
       ReverseBytes (tag * 2 ^ (64 - nbits) + (2 ^ (64 - nbits) - 1))⟩ := by
  rw [groupRange, FEAID_NBITS, keyMax_shiftRight, lor_tag_top, Nat.shiftLeft_eq]

/-- Division of a value with fixed top bits by a smaller power of two. -/
theorem div_byte_split (t s d r : ℕ) (hd : d ≤ s) :
    (t * 2 ^ s + r) / 2 ^ d = t * 2 ^ (s - d) + r / 2 ^ d := by
  have hsplit : t * 2 ^ s = 2 ^ d * (t * 2 ^ (s - d)) := by
    rw [Nat.mul_comm (2 ^ d), Nat.mul_assoc, ← pow_add]; congr 2; omega
  rw [hsplit, Nat.add_comm, Nat.add_mul_div_left _ _ (Nat.two_pow_pos d),
    Nat.add_comm]

/-- Division of a value with fixed top bits by a larger power of two forgets
the low part entirely. -/
theorem div_byte_high (t s d r : ℕ) (hs : s ≤ d) (hr : r < 2 ^ s) :
    (t * 2 ^ s + r) / 2 ^ d = t / 2 ^ (d - s) := by
  have h2 : (2 : ℕ) ^ d = 2 ^ s * 2 ^ (d - s) := by
    rw [← pow_add]; congr 1; omega
  rw [h2, ← Nat.div_div_eq_div_mul]
  congr 1
  rw [Nat.mul_comm t, Nat.add_comm, Nat.add_mul_div_left _ _ (Nat.two_pow_pos s),
    Nat.div_eq_of_lt hr, Nat.zero_add]

/-- The byte of `t * 2^s + r` at a byte position straddling bit `s`. -/
theorem byteAt_middle (t s d r : ℕ) (hd : d < s) (hs : s < d + 8)
    (hr : r < 2 ^ s) (hdj : ∃ j, d = 8 * j) :
    (t * 2 ^ s + r) / 2 ^ d % 2 ^ 8 =
      t % 2 ^ (8 - (s - d)) * 2 ^ (s - d) + r / 2 ^ d := by
  obtain ⟨j, rfl⟩ := hdj
  set e := s - 8 * j with he
  have he1 : 1 ≤ e := by omega
  have he7 : e ≤ 7 := by omega
  have hc : r / 2 ^ (8 * j) < 2 ^ e := by
    rw [Nat.div_lt_iff_lt_mul (Nat.two_pow_pos (8 * j)), ← pow_add]
    exact Nat.lt_of_lt_of_le hr (Nat.pow_le_pow_right (by norm_num) (by omega))
  rw [div_byte_split t s (8 * j) r (by omega)]
  have h28 : (2 : ℕ) ^ 8 = 2 ^ (8 - e) * 2 ^ e := by
    rw [← pow_add]; congr 1; omega
  set q := t % 2 ^ (8 - e) with hq
  have hqlt : q < 2 ^ (8 - e) := Nat.mod_lt _ (Nat.two_pow_pos _)
  have hmod : t * 2 ^ e % 2 ^ 8 = q * 2 ^ e := by
    rw [h28, Nat.mul_mod_mul_right]
  have hbound : q * 2 ^ e + r / 2 ^ (8 * j) < 2 ^ 8 := by
    calc q * 2 ^ e + r / 2 ^ (8 * j) < q * 2 ^ e + 2 ^ e := by omega
      _ = (q + 1) * 2 ^ e := by ring
      _ ≤ 2 ^ (8 - e) * 2 ^ e := Nat.mul_le_mul_right _ (by omega)
      _ = 2 ^ 8 := h28.symm
  calc (t * 2 ^ (s - 8 * j) + r / 2 ^ (8 * j)) % 2 ^ 8
      = (t * 2 ^ e % 2 ^ 8 + r / 2 ^ (8 * j) % 2 ^ 8) % 2 ^ 8 := by
        rw [← he, Nat.add_mod]
    _ = (q * 2 ^ e + r / 2 ^ (8 * j)) % 2 ^ 8 := by
        rw [hmod, Nat.mod_eq_of_lt
          (Nat.lt_of_lt_of_le hc (Nat.pow_le_pow_right (by norm_num) (by omega)))]
    _ = q * 2 ^ e + r / 2 ^ (8 * j) := Nat.mod_eq_of_lt hbound

/-- Per-byte monotonicity: adding a low part `r < 2^s` to `t * 2^s` can only
increase each byte, and the all-ones low part maximises each byte. -/
theorem byteAt_mono_of_top (t s r j : ℕ) (hr : r < 2 ^ s) :
    byteAt (t * 2 ^ s) j ≤ byteAt (t * 2 ^ s + r) j ∧
    byteAt (t * 2 ^ s + r) j ≤ byteAt (t * 2 ^ s + (2 ^ s - 1)) j := by
  have hrtop : 2 ^ s - 1 < 2 ^ s := Nat.sub_lt (Nat.two_pow_pos s) one_pos
  have hs0 : (1 : ℕ) ≤ 2 ^ s := Nat.one_le_two_pow
  unfold byteAt
  rcases Nat.lt_or_ge (8 * j) s with hds | hsd
  · rcases Nat.lt_or_ge s (8 * j + 8) with h8 | h8
    · have hex : ∃ k, 8 * j = 8 * k := ⟨j, rfl⟩
      have f1 := byteAt_middle t s (8 * j) r hds h8 hr hex
      have f2 := byteAt_middle t s (8 * j) (2 ^ s - 1) hds h8 hrtop hex
      have f0 := byteAt_middle t s (8 * j) 0 hds h8 (Nat.two_pow_pos s) hex
      simp only [Nat.add_zero, Nat.zero_div] at f0
      have hc : r / 2 ^ (8 * j) < 2 ^ (s - 8 * j) := by
        rw [Nat.div_lt_iff_lt_mul (Nat.two_pow_pos (8 * j)), ← pow_add]
        exact Nat.lt_of_lt_of_le hr (Nat.pow_le_pow_right (by norm_num) (by omega))
      rw [f1, f2, f0, pow_sub_one_div]
      refine ⟨Nat.le_add_right _ _, Nat.add_le_add_left ?_ _⟩
      omega
    · constructor
      · have hz : t * 2 ^ s / 2 ^ (8 * j) % 2 ^ 8 = 0 := by
          have hdvd : t * 2 ^ s / 2 ^ (8 * j) = t * 2 ^ (s - 8 * j) := by
            rw [Nat.mul_div_assoc t (pow_dvd_pow 2 (by omega : 8 * j ≤ s)),
              Nat.pow_div (by omega) (by norm_num)]
          rw [hdvd]
          have : (2 : ℕ) ^ (s - 8 * j) = 2 ^ 8 * 2 ^ (s - 8 * j - 8) := by
            rw [← pow_add]; congr 1; omega
          rw [this, ← Nat.mul_assoc, Nat.mul_comm t, Nat.mul_assoc,
            Nat.mul_mod_right]
        rw [hz]
        exact Nat.zero_le _
      · have htop : (t * 2 ^ s + (2 ^ s - 1)) / 2 ^ (8 * j) % 2 ^ 8 = 2 ^ 8 - 1 := by
          rw [div_byte_split t s (8 * j) _ (by omega), pow_sub_one_div]
          have hm : (2 : ℕ) ^ (s - 8 * j) = 2 ^ 8 * 2 ^ (s - 8 * j - 8) := by
            rw [← pow_add]; congr 1; omega
          set m := (2 : ℕ) ^ (s - 8 * j - 8) with hmdef
          have hm1 : 1 ≤ m := Nat.one_le_two_pow
          set P := t * m with hP
          have : t * 2 ^ (s - 8 * j) + (2 ^ (s - 8 * j) - 1)
              = 2 ^ 8 * (P + m - 1) + (2 ^ 8 - 1) := by
            rw [hm, ← Nat.mul_assoc, Nat.mul_comm t, Nat.mul_assoc, ← hP]
            have : (2 : ℕ) ^ 8 * m - 1 = 2 ^ 8 * (m - 1) + (2 ^ 8 - 1) := by
              have := Nat.mul_le_mul_left (2 ^ 8) hm1
              omega
            omega
          rw [this, Nat.mul_add_mod]
          norm_num
        rw [htop]
        have := byteAt_lt (t * 2 ^ s + r) j
        unfold byteAt at this
        omega
  · have e1 := div_byte_high t s (8 * j) r hsd hr
    have e2 := div_byte_high t s (8 * j) (2 ^ s - 1) hsd hrtop
    have e3 := div_byte_high t s (8 * j) 0 hsd (Nat.two_pow_pos s)
    rw [Nat.add_zero] at e3
    rw [e1, e2, e3]
    exact ⟨le_refl _, le_refl _⟩

/-- Low hull endpoint: `ReverseBytes` of the smallest raw id of a group is a
lower bound for `ReverseBytes` of every raw id of the group. -/
theorem reverseBytes_hull_lower (s t x : ℕ) (hx : x / 2 ^ s = t) :
    ReverseBytes (t * 2 ^ s) ≤ ReverseBytes x := by
  have hsplit : x = t * 2 ^ s + x % 2 ^ s := by
    conv_lhs => rw [← Nat.div_add_mod x (2 ^ s)]
    rw [hx, Nat.mul_comm]
  rw [hsplit]
  exact reverseBytes_le _ _ fun j =>
    (byteAt_mono_of_top t s (x % 2 ^ s) j (Nat.mod_lt _ (Nat.two_pow_pos s))).1

/-- High hull endpoint: `ReverseBytes` of the largest raw id of a group is an
upper bound for `ReverseBytes` of every raw id of the group. -/
theorem reverseBytes_hull_upper (s t x : ℕ) (hx : x / 2 ^ s = t) :
    ReverseBytes x ≤ ReverseBytes (t * 2 ^ s + (2 ^ s - 1)) := by
  have hsplit : x = t * 2 ^ s + x % 2 ^ s := by
    conv_lhs => rw [← Nat.div_add_mod x (2 ^ s)]
    rw [hx, Nat.mul_comm]
  rw [hsplit]
  exact reverseBytes_le _ _ fun j =>
    (byteAt_mono_of_top t s (x % 2 ^ s) j (Nat.mod_lt _ (Nat.two_pow_pos s))).2

/-- **C2** (amended).  For every `groupBits` (a multiple of 4, at most 64)
and tag `t < 2^groupBits`, every 64-bit id whose top `groupBits` bits equal
`t` is mapped by the byte reversal into the closed interval whose endpoints
are the two boundaries computed by `Partition` (`groupRange`), and both
endpoints are attained by ids of the group.  (The image is in general a
proper subset of that interval, not the whole of it — see the
counterexample.) -/
theorem group_subspace_bounds (n t x : ℕ) (hn4 : n % 4 = 0) (hn : n ≤ 64)
    (ht : t < 2 ^ n) (hx : x < 2 ^ 64) (htop : x / 2 ^ (64 - n) = t) :
    (groupRange n t).lo ≤ ReverseBytes x ∧
    ReverseBytes x ≤ (groupRange n t).hi ∧
    (∃ x0, x0 < 2 ^ 64 ∧ x0 / 2 ^ (64 - n) = t ∧
      ReverseBytes x0 = (groupRange n t).lo) ∧
    (∃ x1, x1 < 2 ^ 64 ∧ x1 / 2 ^ (64 - n) = t ∧
      ReverseBytes x1 = (groupRange n t).hi) := by
  have hs0 : (1 : ℕ) ≤ 2 ^ (64 - n) := Nat.one_le_two_pow
  have hkey : t * 2 ^ (64 - n) + 2 ^ (64 - n) ≤ 2 ^ 64 := by
    calc t * 2 ^ (64 - n) + 2 ^ (64 - n) = (t + 1) * 2 ^ (64 - n) := by ring
      _ ≤ 2 ^ n * 2 ^ (64 - n) := Nat.mul_le_mul_right _ (by omega)
      _ = 2 ^ 64 := by rw [← pow_add]; congr 1; omega
  have hdiv0 : t * 2 ^ (64 - n) / 2 ^ (64 - n) = t :=
    Nat.mul_div_cancel _ (Nat.two_pow_pos _)
  have hdiv1 : (t * 2 ^ (64 - n) + (2 ^ (64 - n) - 1)) / 2 ^ (64 - n) = t := by
    have h := div_byte_high t (64 - n) (64 - n) (2 ^ (64 - n) - 1) le_rfl
      (Nat.sub_lt (Nat.two_pow_pos _) one_pos)
    rwa [Nat.sub_self, pow_zero, Nat.div_one] at h
  rw [groupRange_eq]
  exact ⟨reverseBytes_hull_lower _ _ _ htop, reverseBytes_hull_upper _ _ _ htop,
    ⟨t * 2 ^ (64 - n), by omega, hdiv0, rfl⟩,
    ⟨t * 2 ^ (64 - n) + (2 ^ (64 - n) - 1), by omega, hdiv1, rfl⟩⟩

/-- Witness for `group_subspace_bounds` at `groupBits = 4`, `tag = 3`,
`x = 0x3000000000000001`. -/
theorem group_subspace_bounds_witness :
    (groupRange 4 3).lo ≤ ReverseBytes 0x3000000000000001 ∧
    ReverseBytes 0x3000000000000001 ≤ (groupRange 4 3).hi ∧
    (∃ x0, x0 < 2 ^ 64 ∧ x0 / 2 ^ (64 - 4) = 3 ∧
      ReverseBytes x0 = (groupRange 4 3).lo) ∧
    (∃ x1, x1 < 2 ^ 64 ∧ x1 / 2 ^ (64 - 4) = 3 ∧
      ReverseBytes x1 = (groupRange 4 3).hi) :=
  group_subspace_bounds 4 3 0x3000000000000001 (by norm_num) (by norm_num)
    (by norm_num) (by norm_num) (by norm_num)

/-- **C2** (counterexample).  The interval computed by `Partition` for
`groupBits = 4`, `tag = 3` contains `0x40`, yet no 64-bit id whose top four
bits equal `3` byte-reverses to `0x40`: the subspace does NOT map onto a
contiguous interval — it is scattered inside its bounding interval. -/
theorem group_subspace_not_interval :
    ((groupRange 4 3).lo ≤ 0x40 ∧ 0x40 ≤ (groupRange 4 3).hi) ∧
    ¬ ∃ x, x < 2 ^ 64 ∧ x / 2 ^ (64 - 4) = 3 ∧ ReverseBytes x = 0x40 := by
  refine ⟨by decide, ?_⟩
  rintro ⟨x, hx, htop, hrev⟩
  have hsum : ReverseBytes x = 2 ^ 8 * (byteAt x 0 * 2 ^ 48 + byteAt x 1 * 2 ^ 40 +
      byteAt x 2 * 2 ^ 32 + byteAt x 3 * 2 ^ 24 + byteAt x 4 * 2 ^ 16 +
      byteAt x 5 * 2 ^ 8 + byteAt x 6) + byteAt x 7 := by
    unfold ReverseBytes; ring
  have hmod : ReverseBytes x % 2 ^ 8 = byteAt x 7 := by
    rw [hsum, Nat.mul_add_mod, Nat.mod_eq_of_lt (byteAt_lt x 7)]
  have hb7 : byteAt x 7 = 0x40 := by
    rw [← hmod, hrev]
    norm_num
  have hlt : x / 2 ^ 56 < 2 ^ 8 := by
    rw [Nat.div_lt_iff_lt_mul (Nat.two_pow_pos 56), ← pow_add]
    exact hx
  have hq : x / 2 ^ 56 = 0x40 := by
    unfold byteAt at hb7
    rw [show (8 * 7 : ℕ) = 56 by norm_num] at hb7
    rwa [Nat.mod_eq_of_lt hlt] at hb7
  have h60 : x / 2 ^ 60 = 4 := by
    have hdd : x / 2 ^ 60 = x / 2 ^ 56 / 2 ^ 4 := by
      rw [Nat.div_div_eq_div_mul, ← pow_add]
    rw [hdd, hq]
    norm_num
  norm_num at htop
  omega

/-! ### `Delta` — the trust-region controller (src/bcd/bcd_utils.h 148-150) -/

/-- `Delta::Update(delta_w, delta, max_val)`:
`*delta = std::min(max_val, |delta_w| * 2.0 + 0.1)`, embedded over exact
rationals. -/
def Delta.Update (delta_w max_val : ℚ) : ℚ :=
  min max_val (|delta_w| * 2 + 1 / 10)

/-- **C6** (counterexample).  The claim quantifies over every `maxVal`; with
`maxVal = 0 < 0.1` the recomputed delta is `0`, which does not lie in the
claimed interval `[0.1, maxVal]`. -/
theorem delta_update_below_min :
    Delta.Update 0 0 = 0 ∧ ¬ (1 / 10 : ℚ) ≤ Delta.Update 0 0 := by
  have h : Delta.Update 0 0 = 0 := by
    unfold Delta.Update
    rw [abs_zero, min_eq_left (by norm_num : (0 : ℚ) ≤ 0 * 2 + 1 / 10)]
  exact ⟨h, by rw [h]; norm_num⟩

/-- **C6** (amended).  `Delta::Update` sets
`delta = min(maxVal, |deltaW| * 2 + 0.1)`; provided `maxVal ≥ 0.1`, the
recomputed delta lies in `[0.1, maxVal]` and equals `maxVal` whenever
`|deltaW| ≥ (maxVal - 0.1) / 2`. -/
theorem delta_update_bounds (delta_w max_val : ℚ) (hmv : 1 / 10 ≤ max_val) :
    Delta.Update delta_w max_val = min max_val (|delta_w| * 2 + 1 / 10) ∧
    1 / 10 ≤ Delta.Update delta_w max_val ∧
    Delta.Update delta_w max_val ≤ max_val ∧
    ((max_val - 1 / 10) / 2 ≤ |delta_w| →
      Delta.Update delta_w max_val = max_val) := by
  refine ⟨rfl, ?_, min_le_left _ _, ?_⟩
  · exact le_min hmv (by nlinarith [abs_nonneg delta_w])
  · intro h
    have hge : max_val ≤ |delta_w| * 2 + 1 / 10 := by linarith
    exact min_eq_left hge

/-- Witness for `delta_update_bounds` at `deltaW = 3`, `maxVal = 5`. -/
theorem delta_update_bounds_witness :
    (1 / 10 : ℚ) ≤ 5 ∧
    (Delta.Update 3 5 = min 5 (|(3 : ℚ)| * 2 + 1 / 10) ∧
     (1 / 10 : ℚ) ≤ Delta.Update 3 5 ∧ Delta.Update 3 5 ≤ 5 ∧
     (((5 : ℚ) - 1 / 10) / 2 ≤ |(3 : ℚ)| → Delta.Update 3 5 = 5)) :=
  ⟨by norm_num, delta_update_bounds 3 5 (by norm_num)⟩

/-- **C4** (counterexample).  For `groupBits = 4` and the single group
`(tag = 3, partitionCount = 2)` the two produced blocks are NOT equal-width:
the group's reordered interval has odd width, so the second block is exactly
one unit wider than the first. -/
theorem partition_tag3_unequal_width :
    Partition 4 [(3, 2)] =
      some [⟨0x30, 0x7FFFFFFFFFFFFFB7⟩,
            ⟨0x7FFFFFFFFFFFFFB7, 0xFFFFFFFFFFFFFF3F⟩] ∧
    (0x7FFFFFFFFFFFFFB7 - 0x30 : ℕ) ≠ 0xFFFFFFFFFFFFFF3F - 0x7FFFFFFFFFFFFFB7 ∧
    (0x7FFFFFFFFFFFFFB7 - 0x30 : ℕ) + 1 =
      0xFFFFFFFFFFFFFF3F - 0x7FFFFFFFFFFFFFB7 := by
  refine ⟨by decide, by decide, by decide⟩

/-- **C4** (amended).  For `groupBits = 4` and the single group
`(tag = 3, partitionCount = 2)`, `Partition` produces exactly two blocks,
sorted ascending and contiguous (`blocks[0].end = blocks[1].begin`), which
jointly cover exactly the closed bounding interval
`[0x30, 0xFFFFFFFFFFFFFF3F]` of the reordered-order subspace tagged 3; their
widths differ by one unit (the bounding interval has odd width, so exactly
equal widths are impossible). -/
theorem partition_tag3_two_blocks :
    Partition 4 [(3, 2)] =
      some [⟨0x30, 0x7FFFFFFFFFFFFFB7⟩,
            ⟨0x7FFFFFFFFFFFFFB7, 0xFFFFFFFFFFFFFF3F⟩] ∧
    (0x30 : ℕ) ≤ 0x7FFFFFFFFFFFFFB7 ∧
    (0x7FFFFFFFFFFFFFB7 : ℕ) ≤ 0xFFFFFFFFFFFFFF3F ∧
    groupRange 4 3 = ⟨0x30, 0xFFFFFFFFFFFFFF3F⟩ ∧
    (0x7FFFFFFFFFFFFFB7 - 0x30 : ℕ) + 1 =
      0xFFFFFFFFFFFFFF3F - 0x7FFFFFFFFFFFFFB7 := by
  refine ⟨by decide, by decide, by decide, by decide, by decide⟩

/-- **C1** (counterexample).  Three concrete failures of the claim as
stated: (a) a group with `partitionCount = 0` passes every check but
contributes no block, so its nonempty subspace is not covered at all;
(b) with `groupBits = 60`, two tags whose ranges leave a gap larger than one
unit pass the checks (the one-unit bump does not close the gap), so the
output is not contiguous; (c) the upper boundary stored for a group is the
byte-reversal of its largest raw id itself, so under the half-open reading
of blocks that largest id lies in no block. -/
theorem partition_claim_counterexample :
    (Partition 4 [(3, 0)] = some [] ∧
      (0x3000000000000000 : ℕ) / 2 ^ (64 - 4) = 3) ∧
    (Partition 60 [(1, 1), (3, 1)] =
        some [⟨0x1000000000000000, 0x1F00000000000001⟩,
              ⟨0x3000000000000000, 0x3F00000000000000⟩] ∧
      (0x1F00000000000001 : ℕ) ≠ 0x3000000000000000) ∧
    (Partition 4 [(3, 1)] = some [⟨0x30, 0xFFFFFFFFFFFFFF3F⟩] ∧
      ReverseBytes 0x3FFFFFFFFFFFFFFF = 0xFFFFFFFFFFFFFF3F ∧
      (0x3FFFFFFFFFFFFFFF : ℕ) / 2 ^ (64 - 4) = 3 ∧
      ¬ (0xFFFFFFFFFFFFFF3F : ℕ) < 0xFFFFFFFFFFFFFF3F) := by
  refine ⟨⟨by decide, by decide⟩, ⟨by decide, by decide⟩,
    by decide, by decide, by decide, by decide⟩

/-! ### Postconditions of `Partition` -/

/-- `fixGaps` keeps every low boundary and can only advance high boundaries. -/
theorem fixGaps_forall₂ : ∀ l l', fixGaps l = some l' →
    List.Forall₂ (fun a b : Range => a.lo = b.lo ∧ a.hi ≤ b.hi) l l'
  | [], l', h => by
      simp only [fixGaps, Option.some.injEq] at h
      subst h; exact List.Forall₂.nil
  | [r], l', h => by
      simp only [fixGaps, Option.some.injEq] at h
      subst h; exact List.Forall₂.cons ⟨rfl, le_refl _⟩ List.Forall₂.nil
  | a :: b :: rest, l', h => by
      simp only [fixGaps] at h
      by_cases hg : a.hi < b.lo
      · rw [if_pos hg] at h
        obtain ⟨t', ht', rfl⟩ := Option.map_eq_some'.mp h
        exact List.Forall₂.cons ⟨rfl, Nat.le_succ _⟩ (fixGaps_forall₂ (b :: rest) t' ht')
      · rw [if_neg hg] at h
        by_cases hle : a.hi ≤ b.lo
        · rw [if_pos hle] at h
          obtain ⟨t', ht', rfl⟩ := Option.map_eq_some'.mp h
          exact List.Forall₂.cons ⟨rfl, le_refl _⟩ (fixGaps_forall₂ (b :: rest) t' ht')
        · rw [if_neg hle] at h; cases h

theorem forall₂_head_lo {l t' : List Range}
    (h : List.Forall₂ (fun a b : Range => a.lo = b.lo ∧ a.hi ≤ b.hi) l t')
    {x : Range} {xs : List Range} (hl : l = x :: xs) :
    ∃ y ys, t' = y :: ys ∧ y.lo = x.lo := by
  subst hl
  cases h with
  | cons hhd _ => exact ⟨_, _, rfl, hhd.1.symm⟩

/-- A successful `fixGaps` run leaves no overlap: every block's high boundary
is at most its successor's low boundary. -/
theorem fixGaps_chain : ∀ l l', fixGaps l = some l' →
    List.Chain' (fun a b : Range => a.hi ≤ b.lo) l'
  | [], l', h => by
      simp only [fixGaps, Option.some.injEq] at h
      subst h; exact List.chain'_nil
  | [r], l', h => by
      simp only [fixGaps, Option.some.injEq] at h
      subst h; exact List.chain'_singleton r
  | a :: b :: rest, l', h => by
      simp only [fixGaps] at h
      by_cases hg : a.hi < b.lo
      · rw [if_pos hg] at h
        obtain ⟨t', ht', rfl⟩ := Option.map_eq_some'.mp h
        have htail := fixGaps_chain (b :: rest) t' ht'
        obtain ⟨y, ys, rfl, hy⟩ := forall₂_head_lo (fixGaps_forall₂ (b :: rest) _ ht') rfl
        exact List.chain'_cons.mpr ⟨by rw [hy]; exact hg, htail⟩
      · rw [if_neg hg] at h
        by_cases hle : a.hi ≤ b.lo
        · rw [if_pos hle] at h
          obtain ⟨t', ht', rfl⟩ := Option.map_eq_some'.mp h
          have htail := fixGaps_chain (b :: rest) t' ht'
          obtain ⟨y, ys, rfl, hy⟩ := forall₂_head_lo (fixGaps_forall₂ (b :: rest) _ ht') rfl
          exact List.chain'_cons.mpr ⟨by rw [hy]; exact hle, htail⟩
        · rw [if_neg hle] at h; cases h

/-- Facts established by the collection loop of `Partition`: every pushed
block passed its validity check, every requested tag passed its range check,
and every segment of every requested group is among the collected blocks. -/
theorem buildBlocks_facts (nbits : ℕ) : ∀ grps l, buildBlocks nbits grps = some l →
    (∀ r ∈ l, r.lo ≤ r.hi) ∧
    ∀ p ∈ grps, p.1 < 2 ^ nbits ∧ ∀ q ∈ segsOf nbits p, q ∈ l
  | [], l, h => by
      simp only [buildBlocks, Option.some.injEq] at h
      subst h
      exact ⟨by simp, by simp⟩
  | p :: rest, l, h => by
      simp only [buildBlocks] at h
      by_cases h1 : p.1 < 2 ^ nbits
      · rw [if_pos h1] at h
        by_cases h2 : (segsOf nbits p).all Range.Valid
        · rw [if_pos h2] at h
          obtain ⟨t, ht, rfl⟩ := Option.map_eq_some'.mp h
          obtain ⟨hv, hmem⟩ := buildBlocks_facts nbits rest t ht
          constructor
          · intro r hr
            rcases List.mem_append.mp hr with hr | hr
            · have := List.all_eq_true.mp h2 r hr
              simpa [Range.Valid] using this
            · exact hv r hr
          · intro q hq
            rcases List.mem_cons.mp hq with rfl | hq
            · exact ⟨h1, fun s hs => List.mem_append.mpr (.inl hs)⟩
            · obtain ⟨ha, hb⟩ := hmem q hq
              exact ⟨ha, fun s hs => List.mem_append.mpr (.inr (hb s hs))⟩
        · rw [if_neg h2] at h; cases h
      · rw [if_neg h1] at h; cases h

/-- Every point of a valid range lies in one of its `partitionCount`
segments (read with closed upper ends). -/
theorem segment_cover (g : Range) (cnt : ℕ) (hc : 1 ≤ cnt) (y : ℕ)
    (hy1 : g.lo ≤ y) (hy2 : y ≤ g.hi) :
    ∃ i < cnt, (g.Segment i cnt).lo ≤ y ∧ y ≤ (g.Segment i cnt).hi := by
  have hseg_lo : ∀ i, (g.Segment i cnt).lo = g.lo + (g.hi - g.lo) / cnt * i :=
    fun _ => rfl
  have hseg_hi_last : (g.Segment (cnt - 1) cnt).hi = g.hi := by
    unfold Range.Segment
    simp
  have hseg_hi : ∀ i, i ≠ cnt - 1 →
      (g.Segment i cnt).hi = g.lo + (g.hi - g.lo) / cnt * (i + 1) := by
    intro i hi
    unfold Range.Segment
    simp [hi]
  by_cases hcase : (g.hi - g.lo) / cnt ≠ 0 ∧
      (y - g.lo) / ((g.hi - g.lo) / cnt) < cnt - 1
  · obtain ⟨h0, hlt⟩ := hcase
    refine ⟨(y - g.lo) / ((g.hi - g.lo) / cnt), by omega, ?_, ?_⟩
    · rw [hseg_lo]
      have h1 := Nat.div_mul_le_self (y - g.lo) ((g.hi - g.lo) / cnt)
      rw [Nat.mul_comm] at h1
      omega
    · rw [hseg_hi ((y - g.lo) / ((g.hi - g.lo) / cnt)) (by omega)]
      have h2 := (Nat.div_lt_iff_lt_mul (Nat.pos_of_ne_zero h0)).mp
        (show (y - g.lo) / ((g.hi - g.lo) / cnt) <
          (y - g.lo) / ((g.hi - g.lo) / cnt) + 1 by omega)
      rw [Nat.mul_comm] at h2
      omega
  · refine ⟨cnt - 1, by omega, ?_, ?_⟩
    · rw [hseg_lo]
      by_cases h0 : (g.hi - g.lo) / cnt = 0
      · rw [h0]
        omega
      · have hge : cnt - 1 ≤ (y - g.lo) / ((g.hi - g.lo) / cnt) := by
          by_contra hcon
          exact hcase ⟨h0, by omega⟩
        have h1 : (g.hi - g.lo) / cnt * (cnt - 1) ≤
            (g.hi - g.lo) / cnt * ((y - g.lo) / ((g.hi - g.lo) / cnt)) :=
          Nat.mul_le_mul_left _ hge
        have h2 := Nat.div_mul_le_self (y - g.lo) ((g.hi - g.lo) / cnt)
        rw [Nat.mul_comm] at h2
        omega
    · rw [hseg_hi_last]
      exact hy2

theorem forall₂_mem_left {α β : Type} {R : α → β → Prop} :
    ∀ {l : List α} {l' : List β}, List.Forall₂ R l l' →
      ∀ {a : α}, a ∈ l → ∃ b ∈ l', R a b
  | _, _, .nil, a, ha => absurd ha (List.not_mem_nil a)
  | _, _, .cons hr t, a, ha => by
      rcases List.mem_cons.mp ha with rfl | ha
      · exact ⟨_, List.mem_cons_self _ _, hr⟩
      · obtain ⟨b, hb, hrb⟩ := forall₂_mem_left t ha
        exact ⟨b, List.mem_cons_of_mem _ hb, hrb⟩

theorem forall₂_mem_right {α β : Type} {R : α → β → Prop} :
    ∀ {l : List α} {l' : List β}, List.Forall₂ R l l' →
      ∀ {b : β}, b ∈ l' → ∃ a ∈ l, R a b
  | _, _, .nil, b, hb => absurd hb (List.not_mem_nil b)
  | _, _, .cons hr t, b, hb => by
      rcases List.mem_cons.mp hb with rfl | hb
      · exact ⟨_, List.mem_cons_self _ _, hr⟩
      · obtain ⟨a, ha, hra⟩ := forall₂_mem_right t hb
        exact ⟨a, List.mem_cons_of_mem _ ha, hra⟩

theorem forall₂_lo_map : ∀ {l l' : List Range},
    List.Forall₂ (fun a b : Range => a.lo = b.lo ∧ a.hi ≤ b.hi) l l' →
    l.map Range.lo = l'.map Range.lo
  | _, _, .nil => rfl
  | _, _, .cons hr t => by simp [forall₂_lo_map t, hr.1]

/-- **C1** (amended).  For every `Partition` call whose groups all request at
least one partition, if the call passes its validity checks then the output
block list is sorted ascending by low boundary, every block is valid
(`begin ≤ end`), adjacent blocks do not overlap (each block's high boundary
is at most its successor's low boundary, a single-unit gap having been closed
by the one-unit bump), and every identifier of every requested group's
reordered subspace is covered by some block read with a closed upper end.
(The original claim fails for `partitionCount = 0`, for gaps wider than one
unit, and at the largest id of a group under the half-open reading — see the
counterexample.) -/
theorem partition_postcondition (nbits : ℕ) (grps : List (ℕ × ℕ))
    (blks : List Range) (hp : ∀ p ∈ grps, 1 ≤ p.2)
    (h : Partition nbits grps = some blks) :
    List.Pairwise (fun a b : Range => a.lo ≤ b.lo) blks ∧
    (∀ r ∈ blks, r.lo ≤ r.hi) ∧
    List.Chain' (fun a b : Range => a.hi ≤ b.lo) blks ∧
    (∀ p ∈ grps, ∀ x, x < 2 ^ 64 → x / 2 ^ (64 - nbits) = p.1 →
      ∃ r ∈ blks, r.lo ≤ ReverseBytes x ∧ ReverseBytes x ≤ r.hi) := by
  unfold Partition at h
  by_cases hmod : nbits % 4 = 0
  case neg => rw [if_neg hmod] at h; cases h
  rw [if_pos hmod] at h
  obtain ⟨built, hbuilt, hfix⟩ := Option.bind_eq_some.mp h
  obtain ⟨hvalid, hmem⟩ := buildBlocks_facts nbits grps built hbuilt
  have hperm : List.Perm (List.insertionSort rangeLoLE built) built :=
    List.perm_insertionSort _ _
  have hsorted : List.Pairwise rangeLoLE (List.insertionSort rangeLoLE built) :=
    List.sorted_insertionSort rangeLoLE built
  have hf₂ := fixGaps_forall₂ _ _ hfix
  have hchain := fixGaps_chain _ _ hfix
  refine ⟨?_, ?_, hchain, ?_⟩
  · have hmap : (List.insertionSort rangeLoLE built).map Range.lo =
        blks.map Range.lo := forall₂_lo_map hf₂
    have hpw : List.Pairwise (· ≤ ·) (blks.map Range.lo) := by
      rw [← hmap]
      exact (List.pairwise_map).mpr hsorted
    exact (List.pairwise_map).mp hpw
  · intro r hr
    obtain ⟨a, ha, hlo, hhi⟩ := forall₂_mem_right hf₂ hr
    have hav : a.lo ≤ a.hi := hvalid a (hperm.mem_iff.mp ha)
    omega
  · intro p hpmem x hx htop
    obtain ⟨htag, hsegs⟩ := hmem p hpmem
    have hbounds := groupRange_eq nbits p.1
    have hlow : (groupRange nbits p.1).lo ≤ ReverseBytes x := by
      rw [hbounds]
      exact reverseBytes_hull_lower _ _ _ htop
    have hupp : ReverseBytes x ≤ (groupRange nbits p.1).hi := by
      rw [hbounds]
      exact reverseBytes_hull_upper _ _ _ htop
    obtain ⟨i, hi, hseglo, hseghi⟩ := segment_cover (groupRange nbits p.1) p.2
      (hp p hpmem) (ReverseBytes x) hlow hupp
    have hsmem : (groupRange nbits p.1).Segment i p.2 ∈ built := by
      apply hsegs
      unfold segsOf
      exact List.mem_map.mpr ⟨i, List.mem_range.mpr hi, rfl⟩
    have hsmem' : (groupRange nbits p.1).Segment i p.2 ∈
        List.insertionSort rangeLoLE built := hperm.mem_iff.mpr hsmem
    obtain ⟨r, hrmem, hrlo, hrhi⟩ := forall₂_mem_left hf₂ hsmem'
    exact ⟨r, hrmem, by omega, by omega⟩

/-- Witness for `partition_postcondition` at `groupBits = 4`, one group
`(3, 2)`. -/
theorem partition_postcondition_witness :
    List.Pairwise (fun a b : Range => a.lo ≤ b.lo)
      [⟨0x30, 0x7FFFFFFFFFFFFFB7⟩, ⟨0x7FFFFFFFFFFFFFB7, 0xFFFFFFFFFFFFFF3F⟩] ∧
    (∀ r ∈ ([⟨0x30, 0x7FFFFFFFFFFFFFB7⟩,
        ⟨0x7FFFFFFFFFFFFFB7, 0xFFFFFFFFFFFFFF3F⟩] : List Range), r.lo ≤ r.hi) ∧
    List.Chain' (fun a b : Range => a.hi ≤ b.lo)
      [⟨0x30, 0x7FFFFFFFFFFFFFB7⟩, ⟨0x7FFFFFFFFFFFFFB7, 0xFFFFFFFFFFFFFF3F⟩] ∧
    (∀ p ∈ ([(3, 2)] : List (ℕ × ℕ)), ∀ x, x < 2 ^ 64 →
      x / 2 ^ (64 - 4) = p.1 →
      ∃ r ∈ ([⟨0x30, 0x7FFFFFFFFFFFFFB7⟩,
          ⟨0x7FFFFFFFFFFFFFB7, 0xFFFFFFFFFFFFFF3F⟩] : List Range),
        r.lo ≤ ReverseBytes x ∧ ReverseBytes x ≤ r.hi) :=
  partition_postcondition 4 [(3, 2)]
    [⟨0x30, 0x7FFFFFFFFFFFFFB7⟩, ⟨0x7FFFFFFFFFFFFFB7, 0xFFFFFFFFFFFFFF3F⟩]
    (by decide) (by decide)

/-! ### `FeatureBlock::FindPosition` (src/bcd/bcd_utils.h lines 53-71) -/

/-- Offset of the first element not less than `v` (`std::lower_bound`) from
the head of a list. -/
def idxGe (l : List ℕ) (v : ℕ) : ℕ :=
  (l.takeWhile fun x => decide (x < v)).length

/-- `std::lower_bound(begin + s, end, v) - begin` over the id array. -/
def lowerB (a : List ℕ) (s v : ℕ) : ℕ := s + idxGe (a.drop s) v

/-- The search loop of `FindPosition`: one `[lb, ub)` row-index range per
block, each search resuming from the previous block's upper bound. -/
def findPosGo (a : List ℕ) : List Range → ℕ → List Range
  | [], _ => []
  | b :: bs, cur =>
    let lb := lowerB a cur b.lo
    let ub := lowerB a lb b.hi
    ⟨lb, ub⟩ :: findPosGo a bs ub

/-- The adjacency re-validation loop of `FindPosition`:
`CHECK_LE(feablks[i-1].end, feablks[i].begin)` for each `i ≥ 1`. -/
def contigChk : List Range → Bool
  | [] => true
  | [_] => true
  | a :: b :: rest => decide (a.hi ≤ b.lo) && contigChk (b :: rest)

/-- `FeatureBlock::FindPosition(feaids, feablks, positions)`: re-validate
every block (`CHECK(feablks[i].Valid())`) and the adjacency checks, then
scan with a monotone cursor. -/
def FindPosition (a : List ℕ) (blks : List Range) : Option (List Range) :=
  if blks.all Range.Valid && contigChk blks
  then some (findPosGo a blks 0) else none

theorem contigChk_chain : ∀ l, contigChk l = true →
    List.Chain' (fun x y : Range => x.hi ≤ y.lo) l
  | [], _ => List.chain'_nil
  | [r], _ => List.chain'_singleton r
  | a :: b :: rest, h => by
      simp only [contigChk, Bool.and_eq_true, decide_eq_true_eq] at h
      exact List.chain'_cons.mpr ⟨h.1, contigChk_chain (b :: rest) h.2⟩

theorem idxGe_cons_pos {x v : ℕ} (xs : List ℕ) (hx : x < v) :
    idxGe (x :: xs) v = idxGe xs v + 1 := by
  unfold idxGe
  simp [List.takeWhile_cons, hx]

theorem idxGe_cons_neg {x v : ℕ} (xs : List ℕ) (hx : ¬ x < v) :
    idxGe (x :: xs) v = 0 := by
  unfold idxGe
  simp [List.takeWhile_cons, hx]

theorem idxGe_le_length : ∀ (l : List ℕ) (v : ℕ), idxGe l v ≤ l.length
  | [], v => by simp [idxGe]
  | x :: xs, v => by
      by_cases hx : x < v
      · rw [idxGe_cons_pos xs hx]
        simpa using idxGe_le_length xs v
      · rw [idxGe_cons_neg xs hx]
        simp

/-- Every element strictly before the lower bound is `< v`. -/
theorem idxGe_lt : ∀ (l : List ℕ) (v j : ℕ), j < idxGe l v →
    ∀ {y : ℕ}, l[j]? = some y → y < v
  | [], v, j, hj, y, hy => by simp [idxGe] at hj
  | x :: xs, v, 0, hj, y, hy => by
      by_cases hx : x < v
      · simp only [List.getElem?_cons_zero, Option.some.injEq] at hy
        omega
      · rw [idxGe_cons_neg xs hx] at hj
        omega
  | x :: xs, v, j + 1, hj, y, hy => by
      by_cases hx : x < v
      · rw [idxGe_cons_pos xs hx] at hj
        simp only [List.getElem?_cons_succ] at hy
        exact idxGe_lt xs v j (by omega) hy
      · rw [idxGe_cons_neg xs hx] at hj
        omega

/-- The element at the lower bound (when it exists) is `≥ v`. -/
theorem idxGe_ge : ∀ (l : List ℕ) (v : ℕ) {y : ℕ},
    l[idxGe l v]? = some y → v ≤ y
  | [], v, y, h => by simp at h
  | x :: xs, v, y, h => by
      by_cases hx : x < v
      · rw [idxGe_cons_pos xs hx] at h
        simp only [List.getElem?_cons_succ] at h
        exact idxGe_ge xs v h
      · rw [idxGe_cons_neg xs hx] at h
        simp only [List.getElem?_cons_zero, Option.some.injEq] at h
        omega

theorem lowerB_ge_start (a : List ℕ) (s v : ℕ) : s ≤ lowerB a s v :=
  Nat.le_add_right _ _

theorem lowerB_le_length (a : List ℕ) (s v : ℕ) (hs : s ≤ a.length) :
    lowerB a s v ≤ a.length := by
  unfold lowerB
  have h := idxGe_le_length (a.drop s) v
  rw [List.length_drop] at h
  omega

theorem lowerB_below (a : List ℕ) (s v k : ℕ) (hks : s ≤ k)
    (hk : k < lowerB a s v) {y : ℕ} (hy : a[k]? = some y) : y < v := by
  unfold lowerB at hk
  have hyd : (a.drop s)[k - s]? = some y := by
    rw [List.getElem?_drop, show s + (k - s) = k by omega]
    exact hy
  exact idxGe_lt (a.drop s) v (k - s) (by omega) hyd

theorem lowerB_at (a : List ℕ) (s v : ℕ) {y : ℕ}
    (hy : a[lowerB a s v]? = some y) : v ≤ y := by
  unfold lowerB at hy
  rw [← List.getElem?_drop] at hy
  exact idxGe_ge (a.drop s) v hy

/-- Sortedness in `getElem?` form. -/
theorem sorted_getElem_le {a : List ℕ} (hsort : List.Pairwise (· ≤ ·) a)
    {i j : ℕ} (hij : i ≤ j) {z y : ℕ} (hz : a[i]? = some z)
    (hy : a[j]? = some y) : z ≤ y := by
  rcases Nat.eq_or_lt_of_le hij with rfl | hlt
  · rw [hz] at hy
    cases hy
    exact le_refl _
  · have hi : i < a.length := by
      by_contra hcon
      rw [List.getElem?_eq_none (by omega)] at hz
      cases hz
    have hj : j < a.length := by
      by_contra hcon
      rw [List.getElem?_eq_none (by omega)] at hy
      cases hy
    have hrel := List.pairwise_iff_getElem.mp hsort i j hi hj hlt
    rw [List.getElem?_eq_getElem hi] at hz
    rw [List.getElem?_eq_getElem hj] at hy
    cases hz
    cases hy
    exact hrel

/-- Full specification of the `FindPosition` scan, by induction on the block
list with an explicit cursor invariant. -/
theorem findPosGo_spec (a : List ℕ) (hsort : List.Pairwise (· ≤ ·) a) :
    ∀ (bs : List Range) (cur : ℕ),
      (∀ b ∈ bs, b.lo ≤ b.hi) →
      List.Chain' (fun x y : Range => x.hi ≤ y.lo) bs →
      cur ≤ a.length →
      (∀ b₀, bs.head? = some b₀ → ∀ k, k < cur →
        ∀ y, a[k]? = some y → y < b₀.lo) →
      (findPosGo a bs cur).length = bs.length ∧
      (∀ p ∈ findPosGo a bs cur, cur ≤ p.lo ∧ p.lo ≤ p.hi ∧ p.hi ≤ a.length) ∧
      List.Chain' (fun p q : Range => p.lo ≤ q.lo) (findPosGo a bs cur) ∧
      List.Chain' (fun p q : Range => p.hi ≤ q.lo) (findPosGo a bs cur) ∧
      (∀ i (h1 : i < bs.length) (h2 : i < (findPosGo a bs cur).length)
        (k y : ℕ), a[k]? = some y →
        (((findPosGo a bs cur)[i].lo ≤ k ∧ k < (findPosGo a bs cur)[i].hi) ↔
          (bs[i].lo ≤ y ∧ y < bs[i].hi)))
  | [], cur, _, _, _, _ => by simp [findPosGo]
  | b :: rest, cur, hv, hch, hcur, hinv => by
      simp only [findPosGo]
      set lb := lowerB a cur b.lo with hlb
      set ub := lowerB a lb b.hi with hub
      have hraw : ub = lowerB a (lowerB a cur b.lo) b.hi := by rw [hub, hlb]
      have hrawl : lb = lowerB a cur b.lo := hlb
      have hcl : cur ≤ lb := lowerB_ge_start a cur b.lo
      have hlu : lb ≤ ub := lowerB_ge_start a lb b.hi
      have hlblen : lb ≤ a.length := lowerB_le_length a cur b.lo hcur
      have hublen : ub ≤ a.length := lowerB_le_length a lb b.hi hlblen
      have hinv' : ∀ b₀, rest.head? = some b₀ → ∀ k, k < ub →
          ∀ y, a[k]? = some y → y < b₀.lo := by
        intro b₀ hb₀ k hk y hy
        have hbb : b.hi ≤ b₀.lo := (List.chain'_cons'.mp hch).1 b₀ hb₀
        have hbv : b.lo ≤ b.hi := hv b (List.mem_cons_self _ _)
        rcases Nat.lt_or_ge k cur with hkc | hkc
        · exact Nat.lt_of_lt_of_le (hinv b rfl k hkc y hy) (by omega)
        · rcases Nat.lt_or_ge k lb with hkl | hkl
          · exact Nat.lt_of_lt_of_le (lowerB_below a cur b.lo k hkc hkl hy)
              (by omega)
          · exact Nat.lt_of_lt_of_le (lowerB_below a lb b.hi k hkl hk hy) hbb
      obtain ⟨ih1, ih2, ih3, ih4, ih5⟩ := findPosGo_spec a hsort rest ub
        (fun q hq => hv q (List.mem_cons_of_mem _ hq)) hch.tail hublen hinv'
      refine ⟨by simpa using ih1, ?_, ?_, ?_, ?_⟩
      · intro p hp
        rcases List.mem_cons.mp hp with rfl | hp
        · exact ⟨hcl, hlu, hublen⟩
        · obtain ⟨h1, h2, h3⟩ := ih2 p hp
          exact ⟨by omega, h2, h3⟩
      · refine List.chain'_cons'.mpr ⟨?_, ih3⟩
        intro y hy
        have := (ih2 y (List.mem_of_mem_head? hy)).1
        show lb ≤ y.lo
        omega
      · refine List.chain'_cons'.mpr ⟨?_, ih4⟩
        intro y hy
        have := (ih2 y (List.mem_of_mem_head? hy)).1
        show ub ≤ y.lo
        omega
      · intro i h1 h2 k y hy
        match i with
        | 0 =>
          simp only [List.getElem_cons_zero]
          constructor
          · rintro ⟨hk1, hk2⟩
            constructor
            · have hklen : k < a.length := by
                by_contra hcon
                rw [List.getElem?_eq_none (by omega)] at hy
                cases hy
              have hlbl : lb < a.length := by omega
              have hz : a[lb]? = some a[lb] := List.getElem?_eq_getElem hlbl
              have hbz : b.lo ≤ a[lb] := lowerB_at a cur b.lo hz
              have hzy : a[lb] ≤ y := sorted_getElem_le hsort hk1 hz hy
              omega
            · exact lowerB_below a lb b.hi k hk1 hk2 hy
          · rintro ⟨hy1, hy2⟩
            have hklen : k < a.length := by
              by_contra hcon
              rw [List.getElem?_eq_none (by omega)] at hy
              cases hy
            constructor
            · by_contra hcon
              push_neg at hcon
              rcases Nat.lt_or_ge k cur with hkc | hkc
              · have := hinv b rfl k hkc y hy
                omega
              · have := lowerB_below a cur b.lo k hkc (by omega) hy
                omega
            · by_contra hcon
              push_neg at hcon
              have hul : ub < a.length := by omega
              have hz : a[ub]? = some a[ub] := List.getElem?_eq_getElem hul
              have hbz : b.hi ≤ a[ub] := lowerB_at a lb b.hi hz
              have hzy : a[ub] ≤ y := sorted_getElem_le hsort hcon hz hy
              omega
        | i + 1 =>
          simp only [List.getElem_cons_succ]
          exact ih5 i (by simpa using h1) (by simpa using h2) k y hy

/-- **C3**.  For sorted ids and a block list passing `FindPosition`'s own
checks (valid blocks, `before.end ≤ after.begin`), the scan returns exactly
one row-index range per block in block order; range starts are
non-decreasing and the cursor never rewinds (each range's high end is at most
the next range's low end); and a row index `k` lies in block `i`'s returned
range exactly when its id lies inside block `i`'s bounds. -/
theorem findPosition_spec (a : List ℕ) (blks ps : List Range)
    (hsort : List.Pairwise (· ≤ ·) a)
    (h : FindPosition a blks = some ps) :
    ps.length = blks.length ∧
    List.Chain' (fun p q : Range => p.lo ≤ q.lo) ps ∧
    (∀ p ∈ ps, p.lo ≤ p.hi ∧ p.hi ≤ a.length) ∧
    List.Chain' (fun p q : Range => p.hi ≤ q.lo) ps ∧
    (∀ i (h1 : i < blks.length) (h2 : i < ps.length) (k y : ℕ),
      a[k]? = some y →
      ((ps[i].lo ≤ k ∧ k < ps[i].hi) ↔ (blks[i].lo ≤ y ∧ y < blks[i].hi))) := by
  unfold FindPosition at h
  by_cases hc : blks.all Range.Valid && contigChk blks
  case neg => rw [if_neg hc] at h; cases h
  rw [if_pos hc] at h
  cases h
  simp only [Bool.and_eq_true] at hc
  have hv : ∀ b ∈ blks, b.lo ≤ b.hi := by
    intro b hb
    have := List.all_eq_true.mp hc.1 b hb
    simpa [Range.Valid] using this
  obtain ⟨g1, g2, g3, g4, g5⟩ := findPosGo_spec a hsort blks 0 hv
    (contigChk_chain blks hc.2) (Nat.zero_le _)
    (fun _ _ k hk _ _ => absurd hk (Nat.not_lt_zero k))
  exact ⟨g1, g3, fun p hp => ⟨(g2 p hp).2.1, (g2 p hp).2.2⟩, g4, g5⟩

/-- Witness for `findPosition_spec`: ids `[2, 5, 7, 11]`, blocks
`[0,6)` and `[6,10)` give row ranges `[0,2)` and `[2,3)`. -/
theorem findPosition_spec_witness :
    ([⟨0, 2⟩, ⟨2, 3⟩] : List Range).length = ([⟨0, 6⟩, ⟨6, 10⟩] : List Range).length ∧
    List.Chain' (fun p q : Range => p.lo ≤ q.lo) [⟨0, 2⟩, ⟨2, 3⟩] ∧
    (∀ p ∈ ([⟨0, 2⟩, ⟨2, 3⟩] : List Range), p.lo ≤ p.hi ∧
      p.hi ≤ ([2, 5, 7, 11] : List ℕ).length) ∧
    List.Chain' (fun p q : Range => p.hi ≤ q.lo) [⟨0, 2⟩, ⟨2, 3⟩] ∧
    (∀ i (h1 : i < ([⟨0, 6⟩, ⟨6, 10⟩] : List Range).length)
      (h2 : i < ([⟨0, 2⟩, ⟨2, 3⟩] : List Range).length) (k y : ℕ),
      ([2, 5, 7, 11] : List ℕ)[k]? = some y →
      ((([⟨0, 2⟩, ⟨2, 3⟩] : List Range)[i].lo ≤ k ∧
        k < ([⟨0, 2⟩, ⟨2, 3⟩] : List Range)[i].hi) ↔
       (([⟨0, 6⟩, ⟨6, 10⟩] : List Range)[i].lo ≤ y ∧
        y < ([⟨0, 6⟩, ⟨6, 10⟩] : List Range)[i].hi))) :=
  findPosition_spec [2, 5, 7, 11] [⟨0, 6⟩, ⟨6, 10⟩] [⟨0, 2⟩, ⟨2, 3⟩]
    (by decide) (by decide)

/-! ### `FeaGroupStats` (src/bcd/bcd_utils.h lines 78-108) -/

/-- A batch of labeled sparse rows (`dmlc::RowBlock`): row `i`'s nonzero
feature ids are `rows[i]` (the source's `offset`/`index` arrays delimit
exactly these per-row id lists). -/
structure RowBlock where
  rows : List (List ℕ)

/-- The fixed sampling stride `skip_ = 10` ("only count 10% data"). -/
def skipStride : ℕ := 10

/-- `FeaGroupStats` state: `nbit_` and the counter vector `value_` of length
`2^nbit + 2`, embedded as a function on indices (every access of the source
is in bounds). -/
structure FeaGroupStats where
  nbit : ℕ
  value : ℕ → ℚ

/-- Pointwise counter increment (`value_[i] += amt`). -/
def bump (v : ℕ → ℚ) (i : ℕ) (amt : ℚ) : ℕ → ℚ :=
  fun j => if j = i then v j + amt else v j

/-- Inner loop of `Add`: `++value_[f >> (FEAID_NBITS - nbit_)]` for every
nonzero feature `f` of one inspected row. -/
def addRowFeas (nbit : ℕ) (v : ℕ → ℚ) (row : List ℕ) : ℕ → ℚ :=
  row.foldl (fun acc f => bump acc (f / 2 ^ (64 - nbit)) 1) v

/-- The row indices `0, 10, 20, …` visited by
`for (i = 0; i < size; i += skip_)`. -/
def sampledIdx (n : ℕ) : List ℕ :=
  (List.range n).filter fun i => decide (i % skipStride = 0)

/-- The rows actually inspected by `Add`. -/
def sampledRows (blk : RowBlock) : List (List ℕ) :=
  (sampledIdx blk.rows.length).map fun i => blk.rows.getD i []

/-- `FeaGroupStats::Add(rowblk)`: bump one bucket per observed feature of
each sampled row, then add the sampled-row count to slot `2^nbit` and the
total row count to slot `2^nbit + 1`. -/
def FeaGroupStats.add (st : FeaGroupStats) (blk : RowBlock) : FeaGroupStats :=
  let v1 := (sampledRows blk).foldl (addRowFeas st.nbit) st.value
  let v2 := bump v1 (2 ^ st.nbit) ((sampledRows blk).length : ℚ)
  let v3 := bump v2 (2 ^ st.nbit + 1) ((blk.rows.length : ℚ))
  ⟨st.nbit, v3⟩

/-- `FeaGroupStats::Get(value)`: returns the raw accumulated vector. -/
def FeaGroupStats.get (st : FeaGroupStats) : ℕ → ℚ := st.value

/-- Number of occurrences, across `rws`, of features in bucket `b`. -/
def occCount (nbit b : ℕ) (rws : List (List ℕ)) : ℕ :=
  (rws.map fun row =>
    (row.filter fun f => decide (f / 2 ^ (64 - nbit) = b)).length).sum

theorem addRowFeas_at (nbit : ℕ) : ∀ (row : List ℕ) (v : ℕ → ℚ) (b : ℕ),
    addRowFeas nbit v row b =
      v b + ((row.filter fun f => decide (f / 2 ^ (64 - nbit) = b)).length : ℚ)
  | [], v, b => by simp [addRowFeas]
  | f :: rest, v, b => by
      have hstep : addRowFeas nbit v (f :: rest) =
          addRowFeas nbit (bump v (f / 2 ^ (64 - nbit)) 1) rest := rfl
      rw [hstep, addRowFeas_at nbit rest _ b, List.filter_cons]
      by_cases hf : f / 2 ^ (64 - nbit) = b
      · rw [if_pos (by simp [hf])]
        simp only [bump]
        rw [if_pos hf.symm, List.length_cons]
        push_cast
        ring
      · have hbf : ¬ b = f / 2 ^ (64 - nbit) := fun h => hf h.symm
        rw [if_neg (by simp [hf])]
        simp only [bump]
        rw [if_neg hbf]

theorem foldl_addRowFeas_at (nbit : ℕ) :
    ∀ (rws : List (List ℕ)) (v : ℕ → ℚ) (b : ℕ),
    rws.foldl (addRowFeas nbit) v b = v b + (occCount nbit b rws : ℚ)
  | [], v, b => by simp [occCount]
  | row :: rest, v, b => by
      have hstep : (row :: rest).foldl (addRowFeas nbit) v =
          rest.foldl (addRowFeas nbit) (addRowFeas nbit v row) := rfl
      rw [hstep, foldl_addRowFeas_at nbit rest _ b, addRowFeas_at nbit row v b]
      simp only [occCount, List.map_cons, List.sum_cons]
      push_cast
      ring

theorem sampledRows_ids (blk : RowBlock)
    (hids : ∀ row ∈ blk.rows, ∀ f ∈ row, f < 2 ^ 64) :
    ∀ row ∈ sampledRows blk, ∀ f ∈ row, f < 2 ^ 64 := by
  intro row hrow f hf
  obtain ⟨i, _, rfl⟩ := List.mem_map.mp hrow
  rcases Nat.lt_or_ge i blk.rows.length with hlt | hge
  · rw [List.getD_eq_getElem?_getD, List.getElem?_eq_getElem hlt] at hf
    exact hids _ (List.getElem_mem hlt) f hf
  · rw [List.getD_eq_getElem?_getD, List.getElem?_eq_none hge] at hf
    cases hf

/-- Buckets of in-range ids never alias the two trailing aggregate slots. -/
theorem occCount_high (nbit b : ℕ) (rws : List (List ℕ)) (hb : 2 ^ nbit ≤ b)
    (hn : nbit ≤ 64) (hids : ∀ row ∈ rws, ∀ f ∈ row, f < 2 ^ 64) :
    occCount nbit b rws = 0 := by
  unfold occCount
  rw [List.sum_eq_zero]
  intro x hx
  obtain ⟨row, hrow, rfl⟩ := List.mem_map.mp hx
  rw [List.length_eq_zero, List.filter_eq_nil_iff]
  intro f hf
  have hflt : f < 2 ^ 64 := hids row hrow f hf
  have hbkt : f / 2 ^ (64 - nbit) < 2 ^ nbit := by
    rw [Nat.div_lt_iff_lt_mul (Nat.two_pow_pos _), ← pow_add]
    exact Nat.lt_of_lt_of_le hflt (Nat.pow_le_pow_right (by norm_num) (by omega))
  simp only [decide_eq_true_eq]
  omega

/-- **C8**.  `FeaGroupStats::Add` inspects exactly the rows at indices
`0, 10, 20, …` of the block; each nonzero feature id observed in an
inspected row increments bucket `id >> (64 - nbit)` by one; the number of
sampled rows is added to slot `2^nbit` and the total (unsampled) row count
to slot `2^nbit + 1`; and `Get` returns the raw accumulated vector with no
rescaling by the sampling stride. -/
theorem feaGroupStats_add_spec (st : FeaGroupStats) (blk : RowBlock)
    (hn : st.nbit ≤ 16)
    (hids : ∀ row ∈ blk.rows, ∀ f ∈ row, f < 2 ^ 64) :
    (∀ b, b < 2 ^ st.nbit →
      (st.add blk).value b =
        st.value b + (occCount st.nbit b (sampledRows blk) : ℚ)) ∧
    (st.add blk).value (2 ^ st.nbit) =
      st.value (2 ^ st.nbit) + ((sampledRows blk).length : ℚ) ∧
    (st.add blk).value (2 ^ st.nbit + 1) =
      st.value (2 ^ st.nbit + 1) + ((blk.rows.length : ℚ)) ∧
    sampledRows blk =
      ((List.range blk.rows.length).filter fun i => decide (i % 10 = 0)).map
        (fun i => blk.rows.getD i []) ∧
    (st.add blk).get = (st.add blk).value := by
  have hsr := sampledRows_ids blk hids
  have hv1 : ∀ b, (sampledRows blk).foldl (addRowFeas st.nbit) st.value b =
      st.value b + (occCount st.nbit b (sampledRows blk) : ℚ) :=
    fun b => foldl_addRowFeas_at st.nbit (sampledRows blk) st.value b
  refine ⟨?_, ?_, ?_, rfl, rfl⟩
  · intro b hb
    simp only [FeaGroupStats.add, bump]
    rw [if_neg (by omega), if_neg (by omega)]
    exact hv1 b
  · simp only [FeaGroupStats.add, bump]
    rw [if_neg (show ¬ (2 ^ st.nbit = 2 ^ st.nbit + 1) by omega), if_pos trivial,
      hv1, occCount_high st.nbit (2 ^ st.nbit) (sampledRows blk) le_rfl
        (by omega) hsr]
    push_cast
    ring
  · simp only [FeaGroupStats.add, bump]
    rw [if_pos trivial, if_neg (by omega), hv1,
      occCount_high st.nbit (2 ^ st.nbit + 1) (sampledRows blk) (by omega)
        (by omega) hsr]
    push_cast
    ring

/-- Witness for `feaGroupStats_add_spec`: `nbit = 4`, an 11-row block whose
rows 0 and 10 are sampled. -/
theorem feaGroupStats_add_spec_witness :
    (∀ b, b < 2 ^ (FeaGroupStats.mk 4 (fun _ => 0)).nbit →
      ((FeaGroupStats.mk 4 (fun _ => 0)).add
        (RowBlock.mk [[0x3000000000000000], [], [], [], [], [], [], [], [], [],
          [0x3000000000000000, 0x5000000000000000]])).value b =
        (FeaGroupStats.mk 4 (fun _ => 0)).value b +
          (occCount (FeaGroupStats.mk 4 (fun _ => 0)).nbit b
            (sampledRows (RowBlock.mk [[0x3000000000000000], [], [], [], [],
              [], [], [], [], [], [0x3000000000000000, 0x5000000000000000]])) : ℚ)) ∧
    ((FeaGroupStats.mk 4 (fun _ => 0)).add
      (RowBlock.mk [[0x3000000000000000], [], [], [], [], [], [], [], [], [],
        [0x3000000000000000, 0x5000000000000000]])).value
        (2 ^ (FeaGroupStats.mk 4 (fun _ => 0)).nbit) =
      (FeaGroupStats.mk 4 (fun _ => 0)).value
        (2 ^ (FeaGroupStats.mk 4 (fun _ => 0)).nbit) +
        ((sampledRows (RowBlock.mk [[0x3000000000000000], [], [], [], [], [],
          [], [], [], [], [0x3000000000000000, 0x5000000000000000]])).length : ℚ) ∧
    ((FeaGroupStats.mk 4 (fun _ => 0)).add
      (RowBlock.mk [[0x3000000000000000], [], [], [], [], [], [], [], [], [],
        [0x3000000000000000, 0x5000000000000000]])).value
        (2 ^ (FeaGroupStats.mk 4 (fun _ => 0)).nbit + 1) =
      (FeaGroupStats.mk 4 (fun _ => 0)).value
        (2 ^ (FeaGroupStats.mk 4 (fun _ => 0)).nbit + 1) +
        (((RowBlock.mk [[0x3000000000000000], [], [], [], [], [], [], [], [],
          [], [0x3000000000000000, 0x5000000000000000]]).rows.length : ℚ)) ∧
    sampledRows (RowBlock.mk [[0x3000000000000000], [], [], [], [], [], [],
      [], [], [], [0x3000000000000000, 0x5000000000000000]]) =
      ((List.range (RowBlock.mk [[0x3000000000000000], [], [], [], [], [], [],
        [], [], [], [0x3000000000000000, 0x5000000000000000]]).rows.length).filter
          fun i => decide (i % 10 = 0)).map
        (fun i => (RowBlock.mk [[0x3000000000000000], [], [], [], [], [], [],
          [], [], [], [0x3000000000000000, 0x5000000000000000]]).rows.getD i []) ∧
    ((FeaGroupStats.mk 4 (fun _ => 0)).add
      (RowBlock.mk [[0x3000000000000000], [], [], [], [], [], [], [], [], [],
        [0x3000000000000000, 0x5000000000000000]])).get =
      ((FeaGroupStats.mk 4 (fun _ => 0)).add
        (RowBlock.mk [[0x3000000000000000], [], [], [], [], [], [], [], [], [],
          [0x3000000000000000, 0x5000000000000000]])).value :=
  feaGroupStats_add_spec (FeaGroupStats.mk 4 (fun _ => 0))
    (RowBlock.mk [[0x3000000000000000], [], [], [], [], [], [], [], [], [],
      [0x3000000000000000, 0x5000000000000000]])
    (by norm_num) (by decide)

/-! ### `BlockTracker` (src/bcd/bcd_utils.h lines 113-132) -/

/-- Observable events of a `BlockTracker`: some thread completing
`Finish(id)`, or a `Wait(id)` call returning. -/
inductive TEvent
  | finish (id : ℕ)
  | waitRet (id : ℕ)
  deriving DecidableEq

/-- The per-block done flags (`done_`). -/
def TState := ℕ → Bool

/-- A fresh tracker: every flag pending (`done_(num_blks)` value-initialised
to zero). -/
def tInit : TState := fun _ => false

/-- One atomic step under the tracker's mutex: `Finish(id)` sets the flag
(and `notify_all` wakes the waiters); a `Wait(id)` call returns only when
the flag is set (`cond_.wait(lk, [..]{ return done_[id] == 1; })`). -/
inductive TStep : TState → TEvent → TState → Prop
  | finish (s : TState) (id : ℕ) :
      TStep s (.finish id) (fun j => if j = id then true else s j)
  | waitRet (s : TState) (id : ℕ) : s id = true → TStep s (.waitRet id) s

/-- An interleaved execution: a finite sequence of atomic steps. -/
inductive TExec : TState → List TEvent → TState → Prop
  | nil (s : TState) : TExec s [] s
  | cons {s s' s'' : TState} {e : TEvent} {tr : List TEvent} :
      TStep s e s' → TExec s' tr s'' → TExec s (e :: tr) s''

theorem tStep_mono {s s' : TState} {e : TEvent} (h : TStep s e s') (id : ℕ)
    (hid : s id = true) : s' id = true := by
  cases h with
  | finish fid => by_cases hj : id = fid <;> simp [hj, hid]
  | waitRet wid hw => exact hid

/-- A flag is set after a trace exactly when it was set initially or a
`Finish` for it occurs in the trace. -/
theorem tExec_done_iff {s₀ : TState} : ∀ {tr : List TEvent} {s : TState},
    TExec s₀ tr s → ∀ id, (s id = true ↔ (s₀ id = true ∨ TEvent.finish id ∈ tr))
  | _, _, .nil _, id => by simp
  | _, _, .cons hstep hrest, id => by
      have ih := tExec_done_iff hrest id
      cases hstep with
      | finish fid =>
        rw [ih]
        by_cases hj : id = fid
        · subst hj
          simp
        · simp [hj, Ne.symm hj]
      | waitRet wid hw =>
        rw [ih]
        simp

theorem tExec_append {s : TState} : ∀ {t1 t2 : List TEvent} {s'' : TState},
    TExec s (t1 ++ t2) s'' → ∃ m, TExec s t1 m ∧ TExec m t2 s''
  | [], t2, s'', h => ⟨s, TExec.nil s, h⟩
  | e :: t1, t2, s'', h => by
      cases h with
      | cons hstep hrest =>
        obtain ⟨m, h1, h2⟩ := tExec_append hrest
        exact ⟨m, TExec.cons hstep h1, h2⟩

/-- **C9**.  (i) A step changes a block's flag only from pending to done and
never resets it; (ii) a `Wait(id)` return in any execution from the fresh
tracker is preceded by some thread's `Finish(id)`; (iii) once `Finish(id)`
has occurred, a `Wait(id)` return step is enabled in the current state (and,
by (i), in every later state), so waits no longer block. -/
theorem blockTracker_spec :
    (∀ (s s' : TState) (e : TEvent) (id : ℕ), TStep s e s' →
      (s id = true → s' id = true) ∧
      (s' id ≠ s id → s id = false ∧ s' id = true)) ∧
    (∀ (id : ℕ) (tr1 tr2 : List TEvent) (s : TState),
      TExec tInit (tr1 ++ TEvent.waitRet id :: tr2) s →
      TEvent.finish id ∈ tr1) ∧
    (∀ (id : ℕ) (tr : List TEvent) (s : TState),
      TExec tInit tr s → TEvent.finish id ∈ tr →
      TStep s (.waitRet id) s) := by
  refine ⟨?_, ?_, ?_⟩
  · intro s s' e id h
    refine ⟨tStep_mono h id, ?_⟩
    intro hne
    cases h with
    | finish fid =>
      by_cases hj : id = fid
      · subst hj
        refine ⟨?_, by simp⟩
        cases hsid : s id
        · rfl
        · exact absurd (by simp [hsid]) hne
      · exact absurd (by simp [hj]) hne
    | waitRet wid hw => exact absurd rfl hne
  · intro id tr1 tr2 s h
    obtain ⟨m, h1, h2⟩ := tExec_append h
    cases h2 with
    | cons hstep hrest =>
      cases hstep with
      | waitRet _ hdone =>
        rcases (tExec_done_iff h1 id).mp hdone with h0 | hmem
        · exact absurd h0 (by simp [tInit])
        · exact hmem
  · intro id tr s h hmem
    exact TStep.waitRet s id ((tExec_done_iff h id).mpr (Or.inr hmem))

/-- Witness for `blockTracker_spec`: the two-step execution
`Finish(0); Wait(0) returns` satisfies the safety conclusion. -/
theorem blockTracker_spec_witness :
    TEvent.finish 0 ∈ ([TEvent.finish 0] : List TEvent) :=
  blockTracker_spec.2.1 0 [TEvent.finish 0] [] _
    (TExec.cons (TStep.finish tInit 0)
      (TExec.cons (TStep.waitRet _ 0 (by simp)) (TExec.nil _)))

/-! ### `SGDEntry` and `SGDModel` (src/sgd/sgd_updater.h) -/

/-- The weight entry for one feature (`SGDEntry`): occurrence count, `w`
with its FTRL accumulators, and the optionally-present embedding `V`
(a `real_t*`, null until allocated). -/
structure SGDEntry where
  fea_cnt : ℚ
  w : ℚ
  sqrt_g : ℚ
  z : ℚ
  V : Option (List ℚ)
  deriving DecidableEq

/-- The `SGDEntry()` constructor:
`fea_cnt = 0; w = 0; sqrt_g = 0; z = 0; V = nullptr;`. -/
def SGDEntry.init : SGDEntry := ⟨0, 0, 0, 0, none⟩

/-- `SGDModel` state: embedding width, backing choice, owned id range, and
the two backings (`model_vec_` / `model_map_`). -/
structure SGDModel where
  V_dim : ℕ
  dense : Bool
  start_id : ℕ
  end_id : ℕ
  model_vec : List SGDEntry
  model_map : ℕ → Option SGDEntry

/-- Outcome of `SGDModel::operator[]`: the fatal `CHECK_GE(id, start_id_)`,
a returned entry, or (dense backing only) an out-of-bounds vector access,
which the source neither checks nor defines. -/
inductive AccessResult
  | fatal
  | entry (e : SGDEntry)
  | oob
  deriving DecidableEq

/-- `SGDModel::operator[](id)` (src/sgd/sgd_updater.h lines 94-98):
`CHECK_GE(id, start_id_); id -= start_id_;
return dense_ ? model_vec_[id] : model_map_[id];` — the sparse
`std::unordered_map::operator[]` default-inserts a value-initialised
`SGDEntry` on first touch. -/
def SGDModel.index (m : SGDModel) (id : ℕ) : AccessResult :=
  if id < m.start_id then .fatal
  else if m.dense then
    match m.model_vec.get? (id - m.start_id) with
    | some e => .entry e
    | none => .oob
  else .entry ((m.model_map (id - m.start_id)).getD SGDEntry.init)

/-- Modelled from the spec: `SGDModel::Init(V_dim, start_id, end_id)` — its
body is not among the provided sources; per the spec it fixes the owned
range, chooses the backing representation once (the choice rule is
abstracted as the `dense` parameter), default-initialises the dense backing
up front, and leaves the sparse backing empty for lazy creation. -/
def SGDModel.create (vdim : ℕ) (dense : Bool) (s e : ℕ) : SGDModel :=
  ⟨vdim, dense, s, e,
   if dense then List.replicate (e - s) SGDEntry.init else [],
   fun _ => none⟩

/-- **C5** (counterexample).  With owned range `[0, 4)` and the sparse
backing, indexed access at `id = 7 ≥ endId` is not a fatal precondition
violation: it silently creates and returns a default entry. -/
theorem model_index_no_upper_check :
    (SGDModel.create 0 false 0 4).end_id ≤ 7 ∧
    (SGDModel.create 0 false 0 4).index 7 = .entry SGDEntry.init ∧
    (SGDModel.create 0 false 0 4).index 7 ≠ .fatal := by
  refine ⟨by decide, rfl, by decide⟩

/-- **C5** (amended).  Indexed access into the weight store checks only the
lower bound of the owned range: it is a fatal check violation exactly for
`id < startId`.  An id at or above `endId` is not detected — the sparse
backing silently creates a fresh entry for it (and the dense backing
performs an unchecked out-of-bounds vector access). -/
theorem model_index_fatal_iff (m : SGDModel) (id : ℕ) :
    (m.index id = .fatal ↔ id < m.start_id) ∧
    (m.dense = false → ¬ id < m.start_id →
      m.index id =
        .entry ((m.model_map (id - m.start_id)).getD SGDEntry.init)) := by
  constructor
  · constructor
    · intro h
      by_contra hcon
      unfold SGDModel.index at h
      rw [if_neg hcon] at h
      by_cases hd : m.dense
      · rw [if_pos hd] at h
        cases hget : m.model_vec.get? (id - m.start_id) <;>
          rw [hget] at h <;> cases h
      · rw [if_neg hd] at h
        cases h
    · intro h
      unfold SGDModel.index
      rw [if_pos h]
  · intro hd hge
    unfold SGDModel.index
    rw [if_neg hge, if_neg (by simp [hd])]

/-- Witness for `model_index_fatal_iff` on the sparse model with range
`[0, 4)` at `id = 7`. -/
theorem model_index_fatal_iff_witness :
    ¬ (SGDModel.create 0 false 0 4).index 7 = .fatal ∧
    (SGDModel.create 0 false 0 4).index 7 =
      .entry (((SGDModel.create 0 false 0 4).model_map
        (7 - (SGDModel.create 0 false 0 4).start_id)).getD SGDEntry.init) :=
  ⟨fun h => absurd ((model_index_fatal_iff (SGDModel.create 0 false 0 4) 7).1.mp h)
      (by decide),
   (model_index_fatal_iff (SGDModel.create 0 false 0 4) 7).2 rfl (by decide)⟩

/-- **C10**.  Every optimizer entry is created with occurrence count 0,
bias weight 0, accumulators `z = 0` and `sqrtG = 0`, and no embedding
allocated: the constructor zeroes every field and nulls `V`; the dense
backing is filled with such entries up front; the sparse backing creates
exactly such an entry on first indexed access. -/
theorem sgdEntry_fresh_zero (vdim s e id : ℕ) (dense : Bool)
    (hid : ¬ id < s) :
    SGDEntry.init.fea_cnt = 0 ∧ SGDEntry.init.w = 0 ∧
    SGDEntry.init.z = 0 ∧ SGDEntry.init.sqrt_g = 0 ∧
    SGDEntry.init.V = none ∧
    (∀ ent ∈ (SGDModel.create vdim dense s e).model_vec, ent = SGDEntry.init) ∧
    (SGDModel.create vdim false s e).index id = .entry SGDEntry.init := by
  refine ⟨rfl, rfl, rfl, rfl, rfl, ?_, ?_⟩
  · intro ent hent
    simp only [SGDModel.create] at hent
    by_cases hd : dense
    · rw [if_pos hd] at hent
      exact List.eq_of_mem_replicate hent
    · rw [if_neg hd] at hent
      cases hent
  · simp only [SGDModel.index, SGDModel.create]
    rw [if_neg hid]
    simp

/-- Witness for `sgdEntry_fresh_zero` at `V_dim = 8`, range `[0, 4)`,
`id = 7`. -/
theorem sgdEntry_fresh_zero_witness :
    SGDEntry.init.fea_cnt = 0 ∧ SGDEntry.init.w = 0 ∧
    SGDEntry.init.z = 0 ∧ SGDEntry.init.sqrt_g = 0 ∧
    SGDEntry.init.V = none ∧
    (∀ ent ∈ (SGDModel.create 8 true 0 4).model_vec, ent = SGDEntry.init) ∧
    (SGDModel.create 8 false 0 4).index 7 = .entry SGDEntry.init :=
  sgdEntry_fresh_zero 8 0 4 7 true (by decide)

/-! ### `SGDUpdaterParam` (src/sgd/sgd_updater.h lines 16-57) -/

/-- One `DMLC_DECLARE_FIELD` declaration: key name, optional `set_range`
bounds, optional `set_default` value. -/
structure ParamField where
  name : String
  low : Option ℚ
  high : Option ℚ
  dflt : Option ℚ
  deriving DecidableEq

/-- The declaration block of `SGDUpdaterParam`, field by field:
`l1/l2/V_l2` range `[0, 1e10 = 10000000000]`, `lr` range `[0, 10]`, `lr_beta/V_lr` range
`[0, 1e10]`, `V_lr_beta/V_init_scale` range `[0, 10]`; `V_threshold` and
`seed` have defaults but no range; `V_dim` has neither (required). -/
def sgdUpdaterParamFields : List ParamField :=
  [⟨"l1", some 0, some 10000000000, some 1⟩,
   ⟨"l2", some 0, some 10000000000, some 0⟩,
   ⟨"V_l2", some 0, some 10000000000, some (mkRat 1 100)⟩,
   ⟨"lr", some 0, some 10, some (mkRat 1 100)⟩,
   ⟨"lr_beta", some 0, some 10000000000, some 1⟩,
   ⟨"V_lr", some 0, some 10000000000, some (mkRat 1 100)⟩,
   ⟨"V_lr_beta", some 0, some 10, some 1⟩,
   ⟨"V_init_scale", some 0, some 10, some (mkRat 1 100)⟩,
   ⟨"V_threshold", none, none, some 10⟩,
   ⟨"V_dim", none, none, none⟩,
   ⟨"seed", none, none, some 0⟩]

/-- Modelled from the spec: `dmlc::Parameter::Init` (external library) is
fatal on a missing required field (one declared without a default) and on a
supplied value outside a declared range. -/
def paramInitOk (supplied : List (String × ℚ)) : Bool :=
  sgdUpdaterParamFields.all fun f =>
    match (supplied.lookup f.name).orElse (fun _ => f.dflt) with
    | none => false
    | some v =>
      (match f.low with | none => true | some lo => decide (lo ≤ v)) &&
      (match f.high with | none => true | some hi => decide (v ≤ hi))

theorem mkRat_hundredth : mkRat 1 100 = 1 / 100 := by norm_num [mkRat]

/-- **C7** (counterexample).  Not every configuration key has both a
documented range and a default: `V_dim` has neither (it is required), and
`V_threshold` and `seed` have defaults but no declared range. -/
theorem param_fields_missing_default :
    ¬ (∀ f ∈ sgdUpdaterParamFields,
        f.low.isSome ∧ f.high.isSome ∧ f.dflt.isSome) := by decide

/-- **C7** (amended).  The configuration block declares exactly the eleven
documented keys; a key has a declared range exactly when it is one of the
eight rate/regularization scales; every key except `V_dim` has a default;
`V_dim` is required, so initialization is fatal when it is missing and
succeeds when it is supplied; an out-of-range supplied value is likewise
fatal. -/
theorem param_fields_spec :
    sgdUpdaterParamFields.map ParamField.name =
      ["l1", "l2", "V_l2", "lr", "lr_beta", "V_lr", "V_lr_beta",
       "V_init_scale", "V_threshold", "V_dim", "seed"] ∧
    (∀ f ∈ sgdUpdaterParamFields,
      (f.low.isSome ∧ f.high.isSome) ↔ f.name ∈
        (["l1", "l2", "V_l2", "lr", "lr_beta", "V_lr", "V_lr_beta",
          "V_init_scale"] : List String)) ∧
    (∀ f ∈ sgdUpdaterParamFields, f.dflt.isSome ↔ f.name ≠ "V_dim") ∧
    paramInitOk [] = false ∧
    paramInitOk [("V_dim", 8)] = true ∧
    paramInitOk [("V_dim", 8), ("lr", 100)] = false := by decide

end Difacto
